import Mathlib

/-!
Verification of the report-model string cache (`robot/reporting/stringcache.py`)
and the variable-table reader (`robot/variables/tablesetter.py`).

Python strings are modelled as lists of characters (`Str`).  The helper
`compress_text` (from `robot.utils`, outside the verified sources) is taken as
an explicit function parameter throughout; properties the surrounding
specification attributes to it (invertibility, output distinguishable from the
marker form) appear as hypotheses where a result depends on them.
-/

namespace Robot

/-- A Python string, modelled as its list of characters. -/
abbrev Str := List Char

/-- Translation of `StringCache.__init__` state: the dict `_cache` (an
association list from encoded text to id, kept in insertion order) and the
counter `_index`.  `StringIndex` is a plain integer wrapper, so ids are `Nat`. -/
structure StringCache where
  cache : List (Str × Nat)
  index : Nat
deriving DecidableEq, Repr

/-- `StringCache._compress_threshold = 80`. -/
def compressThreshold : Nat := 80

/-- The freshly constructed cache: `{'*': StringIndex(0)}` with `_index = 1`. -/
def StringCache.init : StringCache := ⟨[(['*'], 0)], 1⟩

/-- Dictionary lookup `self._cache[text]` / membership `text in self._cache`. -/
def StringCache.lookup (c : StringCache) (s : Str) : Option Nat :=
  (c.cache.find? (fun p => p.1 = s)).map (·.2)

/-- `StringCache._raw`: `'*' + text`. -/
def marked (text : Str) : Str := '*' :: text

/-- `StringCache._encode`.  The float test `len(compressed) * 1.1 < len(raw)`
(`_use_compressed_threshold = 1.1`) is modelled exactly by the rational
comparison `11 * len(compressed) < 10 * len(raw)`. -/
def StringCache.encode (c : StringCache) (compress : Str → Str) (text : Str) : Str :=
  let r := marked text
  if (c.lookup r).isSome || r.length < compressThreshold then r
  else
    let compressed := compress text
    if compressed.length * 11 < r.length * 10 then compressed else r

/-- `StringCache.add` for a non-None argument: returns the id and the new
cache state. -/
def StringCache.add (c : StringCache) (compress : Str → Str) (text : Str) :
    Nat × StringCache :=
  if text = [] then (0, c)
  else
    let e := c.encode compress text
    match c.lookup e with
    | some i => (i, c)
    | none => (c.index, ⟨c.cache ++ [(e, c.index)], c.index + 1⟩)

/-- `StringCache.add` including the `None` argument: `if not text` accepts
both the empty string and `None`. -/
def StringCache.addOpt (c : StringCache) (compress : Str → Str) :
    Option Str → Nat × StringCache
  | none => (0, c)
  | some t => c.add compress t

/-- Run a whole sequence of `add` calls. -/
def StringCache.addAllOpt (c : StringCache) (compress : Str → Str) :
    List (Option Str) → StringCache
  | [] => c
  | t :: ts => ((c.addOpt compress t).2).addAllOpt compress ts

/-- `StringCache.dump`: the stored encoded strings sorted by id. -/
def StringCache.dump (c : StringCache) : List Str :=
  (c.cache.mergeSort (fun a b => decide (a.2 ≤ b.2))).map (·.1)

/-- Well-formedness of a cache state: the ids stored in the association list
are exactly the positions `0, 1, 2, ...` (so insertion order and id order
agree) and the counter is the next free id. -/
def StringCache.WF (c : StringCache) : Prop :=
  c.cache.map (·.2) = List.range c.cache.length ∧ c.index = c.cache.length

/-- Reversing the encoding step of `StringCache`: an entry carrying the
leading marker has it stripped, anything else is decompressed. -/
def decodeEntry (decompress : Str → Str) (s : Str) : Str :=
  if s.head? = some '*' then s.tail else decompress s

/-- A toy invertible compressor used to witness hypotheses about
`compress_text`. -/
def consCompress (s : Str) : Str := 'c' :: s

/-- Inverse of `consCompress`. -/
def tailDecompress (s : Str) : Str := s.tail

/-- The encoded forms a sequence of `add` calls actually inserts (those not
already present at call time), in insertion order. -/
def insertedForms (compress : Str → Str) : StringCache → List (Option Str) → List Str
  | _, [] => []
  | c, none :: ts => insertedForms compress c ts
  | c, some t :: ts =>
    if t = [] then insertedForms compress c ts
    else if (c.lookup (c.encode compress t)).isSome then insertedForms compress c ts
    else c.encode compress t :: insertedForms compress ((c.add compress t).2) ts

/-- A compressor that sends every text to the two-character string `*a`,
exhibiting a compressed form that equals the marked form of the text `a`. -/
def collideCompress (_ : Str) : Str := ['*', 'a']

/-- A collection of `StringCache` instances living side by side, indexed by
position; used to state that distinct instances never influence each other. -/
abbrev CacheWorld := List StringCache

/-- Perform one `add` on the instance in slot `k`, leaving all others as
they are. -/
def CacheWorld.addAt (w : CacheWorld) (k : Nat) (compress : Str → Str)
    (t : Option Str) : Option Nat × CacheWorld :=
  match w[k]? with
  | none => (none, w)
  | some c => (some (c.addOpt compress t).1, w.set k (c.addOpt compress t).2)

/-- Run a sequence of `add` calls against slot `k`, collecting the returned
indices. -/
def CacheWorld.runAt (w : CacheWorld) (k : Nat) (compress : Str → Str) :
    List (Option Str) → List (Option Nat) × CacheWorld
  | [] => ([], w)
  | t :: ts =>
    ((w.addAt k compress t).1 :: ((w.addAt k compress t).2.runAt k compress ts).1,
      ((w.addAt k compress t).2.runAt k compress ts).2)

/-- The sequence of indices a cache returns for a sequence of `add` calls. -/
def StringCache.runIndices (c : StringCache) (compress : Str → Str) :
    List (Option Str) → List Nat
  | [] => []
  | t :: ts =>
    (c.addOpt compress t).1 :: ((c.addOpt compress t).2).runIndices compress ts

/-- A `DataError` (robot.errors), identified by its message. -/
structure DataError where
  message : Str
deriving DecidableEq, Repr

/-- The single-quote character, used inside error messages. -/
def quoteCh : Char := Char.ofNat 39

/-- The message of the recursion guard in `DelayedVariable._avoid_recursion`. -/
def recursiveMsg : Str := "Recursive variable definition.".data

/-- The message `DelayedVariable.resolve` hands to `raise_not_found`. -/
def notFoundMsg (name : Str) : Str :=
  "Variable ".data ++ [quoteCh] ++ name ++ [quoteCh] ++ " not found.".data

/-- Outcome of a call to `DelayedVariable.resolve`: the returned value or
raised error, the `_resolving` flag afterwards, the variable store
afterwards, and the messages passed to the error reporter of the variable. -/
structure ResolveOutcome where
  result : Except DataError (List Str)
  resolvingAfter : Bool
  storeAfter : List Str
  reported : List Str
deriving Repr

/-- `DelayedVariable._resolve` under the `_avoid_recursion` guard.  The call
into `variables.replace_list` / `replace_scalar` (external collaborators) is
abstracted as its outcome `body`.  When the flag is already set the guard
raises before entering the protected region, leaving the flag to the outer
resolution that set it; otherwise the flag is set for the duration of the
body and the `finally` clears it again on both normal and error exit. -/
def delayedResolveInner (resolving : Bool) (body : Except DataError (List Str)) :
    Except DataError (List Str) × Bool :=
  if resolving then (.error ⟨recursiveMsg⟩, resolving)
  else (body, false)

/-- Modelled from the spec: `raise_not_found` (robot.variables.notfound) is
not among the source files; per its call site in `DelayedVariable.resolve`
it raises a `DataError` carrying the message given to it. -/
def raiseNotFound (msg : Str) : Except DataError (List Str) :=
  .error ⟨msg⟩

/-- `DelayedVariable.resolve`: runs the guarded resolution; on a `DataError`
it removes the variable from the store and reports the error through the
reporter of the variable itself (only when the variable is still in the
store), then raises not-found. -/
def DelayedVariable.resolve (resolving : Bool) (body : Except DataError (List Str))
    (name : Str) (store : List Str) : ResolveOutcome :=
  match delayedResolveInner resolving body with
  | (.ok v, flag) => ⟨.ok v, flag, store, []⟩
  | (.error err, flag) =>
    if name ∈ store then
      ⟨raiseNotFound (notFoundMsg name), flag, store.erase name, [err.message]⟩
    else
      ⟨raiseNotFound (notFoundMsg name), flag, store, []⟩

/-- `DelayedVariable.__init__`: the stored value cells and the `_resolving`
flag (initially false).  The error reporter is tracked externally. -/
structure DelayedVariable where
  value : List Str
  resolving : Bool
deriving DecidableEq, Repr

/-- One row of the variable table as `VariableTableReader.read` sees it: its
truthiness (`if not var`), its name, and its value — a single string or a
list of strings (`isinstance(value, basestring)`). -/
structure VarEntry where
  truthy : Bool
  name : Str
  value : Sum Str (List Str)
deriving DecidableEq, Repr

/-- `len` of a Python value that is either a string or a list. -/
def valueLen : Sum Str (List Str) → Nat
  | Sum.inl s => s.length
  | Sum.inr l => l.length

/-- Iterating a Python value: a string yields its characters as 1-character
strings, a list yields its items. -/
def valueCells : Sum Str (List Str) → List Str
  | Sum.inl s => s.map (fun ch => [ch])
  | Sum.inr l => l

/-- `_unescape_leading_trailing_spaces`: drop a trailing backslash after a
space, then a leading backslash before a space. -/
def unescapeLeadingTrailingSpaces (item : Str) : Str :=
  let item2 := match item.reverse with
    | '\\' :: ' ' :: _ => item.dropLast
    | _ => item
  match item2 with
  | '\\' :: ' ' :: _ => item2.tail
  | _ => item2

/-- The message of `_validate_var_is_not_scalar_list`. -/
def scalarListMsg (name : Str) : Str :=
  ("Creating a scalar variable with a list value in the Variable table " ++
    "is no longer possible. Create a list variable ").data
    ++ [quoteCh, '@'] ++ name.tail ++ [quoteCh]
    ++ " and use it as a scalar variable ".data ++ [quoteCh] ++ name ++ [quoteCh]
    ++ " instead.".data

/-- `_validate_var_is_not_scalar_list`: a scalar-named variable must not
carry a value of length greater than one. -/
def validateVarIsNotScalarList (isScalar : Str → Bool) (name : Str)
    (value : Sum Str (List Str)) : Except DataError Unit :=
  if isScalar name && decide (1 < valueLen value) then
    .error ⟨scalarListMsg name⟩
  else .ok ()

/-- `_get_name_and_value`.  `validate_var` and `is_scalar_var`
(robot.variables.isvar, outside the source files) are taken as parameters:
`validate` may raise a `DataError`, `isScalar` classifies scalar names. -/
def getNameAndValue (validate : Str → Except DataError Unit)
    (isScalar : Str → Bool) (name : Str) (value : Sum Str (List Str)) :
    Except DataError (Str × DelayedVariable) := do
  _ ← validate name
  let cells ← (match value with
    | Sum.inl s =>
      if isScalar name then pure [s]
      else do
        _ ← validateVarIsNotScalarList isScalar name (Sum.inl s)
        pure (valueCells (Sum.inl s))
    | Sum.inr l => do
        _ ← validateVarIsNotScalarList isScalar name (Sum.inr l)
        pure l)
  pure (name, ⟨cells.map unescapeLeadingTrailingSpaces, false⟩)

/-- `VariableTableReader.read`: skip falsy entries, yield the processed
name/value pairs, and swallow every `DataError` (each goes to the reporter
of its own entry, modelled by `readReports`). -/
def VariableTableReader.read (validate : Str → Except DataError Unit)
    (isScalar : Str → Bool) : List VarEntry → List (Str × DelayedVariable)
  | [] => []
  | v :: vs =>
    if v.truthy = false then VariableTableReader.read validate isScalar vs
    else
      match getNameAndValue validate isScalar v.name v.value with
      | .ok p => p :: VariableTableReader.read validate isScalar vs
      | .error _ => VariableTableReader.read validate isScalar vs

/-- The calls `var.report_invalid_syntax(err)` made during `read`, tagged
with the position of the entry whose own callback received the error. -/
def readReports (validate : Str → Except DataError Unit) (isScalar : Str → Bool) :
    Nat → List VarEntry → List (Nat × DataError)
  | _, [] => []
  | i, v :: vs =>
    if v.truthy = false then readReports validate isScalar (i + 1) vs
    else
      match getNameAndValue validate isScalar v.name v.value with
      | .ok _ => readReports validate isScalar (i + 1) vs
      | .error e => (i, e) :: readReports validate isScalar (i + 1) vs

/-- A validator that accepts every name, for concrete instantiations. -/
def okValidate (_ : Str) : Except DataError Unit := Except.ok ()

/-- A name classifier that treats every name as scalar, for concrete
instantiations. -/
def allScalar (_ : Str) : Bool := true

theorem StringCache.init_wf : StringCache.init.WF := by
  constructor <;> rfl

theorem StringCache.lookup_append (c : StringCache) (e s : Str) (n : Nat) :
    StringCache.lookup ⟨c.cache ++ [(e, n)], n + 1⟩ s =
      ((c.lookup s).orElse (fun _ => if e = s then some n else none)) := by
  simp only [StringCache.lookup, List.find?_append]
  cases h : c.cache.find? (fun p => p.1 = s) with
  | some p => simp [Option.orElse]
  | none =>
    simp only [Option.map_none', Option.orElse, Option.none_orElse]
    by_cases he : e = s
    · simp [List.find?, he]
    · simp [List.find?, he]

/-- In a well-formed cache the pair at position `k` carries id `k`. -/
theorem StringCache.wf_snd (c : StringCache) (hwf : c.WF) (k : Nat)
    (hk : k < c.cache.length) : (c.cache.get ⟨k, hk⟩).2 = k := by
  obtain ⟨hids, _⟩ := hwf
  have h1 := congrArg (fun l => l[k]?) hids
  simp only [List.getElem?_map, List.getElem?_eq_getElem hk,
    List.getElem?_range hk, Option.map_some'] at h1
  simpa [List.get_eq_getElem] using Option.some.inj h1

/-- A successful lookup in a well-formed cache finds the pair sitting at the
position equal to its id. -/
theorem StringCache.lookup_wf_get (c : StringCache) (hwf : c.WF) (e : Str) (i : Nat)
    (h : c.lookup e = some i) :
    ∃ hi : i < c.cache.length, c.cache.get ⟨i, hi⟩ = (e, i) := by
  simp only [StringCache.lookup, Option.map_eq_some'] at h
  obtain ⟨p, hp, hpi⟩ := h
  have hmem : p ∈ c.cache := List.mem_of_find?_eq_some hp
  have hpe : p.1 = e := by simpa using List.find?_some hp
  obtain ⟨k, hk, hget⟩ := List.getElem_of_mem hmem
  have hsnd : p.2 = k := by
    have := c.wf_snd hwf k hk
    simpa [List.get_eq_getElem, hget] using this
  have hik : i = k := by omega
  subst hik
  refine ⟨hk, ?_⟩
  obtain ⟨p1, p2⟩ := p
  simp only at hpe hpi
  subst hpe hpi
  simpa [List.get_eq_getElem] using hget

theorem StringCache.add_wf (c : StringCache) (hwf : c.WF) (compress : Str → Str)
    (t : Str) : ((c.add compress t).2).WF := by
  obtain ⟨hids, hidx⟩ := hwf
  unfold StringCache.add
  by_cases ht : t = []
  · simpa [ht] using ⟨hids, hidx⟩
  · simp only [if_neg ht]
    cases hl : c.lookup (c.encode compress t) with
    | some i => exact ⟨hids, hidx⟩
    | none =>
      refine ⟨?_, ?_⟩ <;> simp [List.range_succ, hids, hidx]

theorem StringCache.addOpt_wf (c : StringCache) (hwf : c.WF) (compress : Str → Str)
    (t : Option Str) : ((c.addOpt compress t).2).WF := by
  cases t with
  | none => exact hwf
  | some s => exact c.add_wf hwf compress s

theorem StringCache.addAllOpt_wf (compress : Str → Str) (ts : List (Option Str)) :
    ∀ (c : StringCache), c.WF → (c.addAllOpt compress ts).WF := by
  induction ts with
  | nil => exact fun c h => h
  | cons t ts ih =>
    intro c hwf
    exact ih _ (c.addOpt_wf hwf compress t)

/-- In a well-formed cache the entries are already in id order, so the sort
inside `dump` is the identity. -/
theorem StringCache.dump_wf (c : StringCache) (hwf : c.WF) :
    c.dump = c.cache.map (·.1) := by
  unfold StringCache.dump
  congr 1
  apply List.mergeSort_of_sorted
  have h1 : List.Pairwise (· < ·) (c.cache.map (·.2)) := by
    rw [hwf.1]; exact List.pairwise_lt_range _
  have h2 : List.Pairwise (fun a b : Str × Nat => a.2 < b.2) c.cache :=
    List.pairwise_map.mp h1
  exact h2.imp (fun h => by simpa using Nat.le_of_lt h)

theorem StringCache.dump_getElem? (c : StringCache) (hwf : c.WF) (e : Str) (i : Nat)
    (h : c.lookup e = some i) : c.dump[i]? = some e := by
  obtain ⟨hi, hget⟩ := c.lookup_wf_get hwf e i h
  rw [c.dump_wf hwf]
  have h1 : (c.cache.map (·.1))[i]? = some ((c.cache.get ⟨i, hi⟩).1) := by
    simp [List.getElem?_eq_getElem hi, List.get_eq_getElem]
  rw [h1, hget]

theorem StringCache.encode_cases (c : StringCache) (compress : Str → Str) (t : Str) :
    c.encode compress t = marked t ∨ c.encode compress t = compress t := by
  unfold StringCache.encode
  by_cases h1 : (c.lookup (marked t)).isSome || (marked t).length < compressThreshold
  · simp [h1]
  · by_cases h2 : (compress t).length * 11 < (marked t).length * 10
    · simp [h1, h2]
    · simp [h1, h2]

theorem StringCache.add_hit (c : StringCache) (compress : Str → Str) (t : Str)
    (ht : t ≠ []) (i : Nat) (h : c.lookup (c.encode compress t) = some i) :
    c.add compress t = (i, c) := by
  unfold StringCache.add
  simp [ht, h]

theorem StringCache.add_miss (c : StringCache) (compress : Str → Str) (t : Str)
    (ht : t ≠ []) (h : c.lookup (c.encode compress t) = none) :
    c.add compress t =
      (c.index, ⟨c.cache ++ [(c.encode compress t, c.index)], c.index + 1⟩) := by
  unfold StringCache.add
  simp [ht, h]

/-- Inserting the fresh encoded form of `t` does not change how `t` itself is
encoded: re-encoding in the extended cache yields the same string. -/
theorem StringCache.encode_extend_self (c : StringCache) (compress : Str → Str)
    (t e : Str) (he : e = c.encode compress t) (h : c.lookup e = none) :
    StringCache.encode ⟨c.cache ++ [(e, c.index)], c.index + 1⟩ compress t = e := by
  have hmem0 : c.lookup (marked t) = none := by
    cases hm : c.lookup (marked t) with
    | none => rfl
    | some i =>
      exfalso
      have heq : c.encode compress t = marked t := by
        unfold StringCache.encode
        simp [hm]
      rw [he, heq] at h
      simp [hm] at h
  have hla := c.lookup_append e (marked t) c.index
  by_cases her : e = marked t
  · have hsome : StringCache.lookup ⟨c.cache ++ [(e, c.index)], c.index + 1⟩
        (marked t) = some c.index := by
      rw [hla, hmem0]
      simp [her]
    rw [her] at hsome ⊢
    unfold StringCache.encode
    simp [hsome]
  · have hnone : StringCache.lookup ⟨c.cache ++ [(e, c.index)], c.index + 1⟩
        (marked t) = none := by
      rw [hla, hmem0]
      simp [her]
    unfold StringCache.encode at he ⊢
    simp only [hnone, hmem0, Option.isSome_none, Bool.false_or] at he ⊢
    exact he.symm

theorem StringCache.add_add_same (c : StringCache) (compress : Str → Str) (t : Str)
    (ht : t ≠ []) :
    ((c.add compress t).2).add compress t =
      ((c.add compress t).1, (c.add compress t).2) := by
  cases hl : c.lookup (c.encode compress t) with
  | some i =>
    rw [c.add_hit compress t ht i hl]
    exact c.add_hit compress t ht i hl
  | none =>
    rw [c.add_miss compress t ht hl]
    apply StringCache.add_hit _ compress t ht
    rw [StringCache.encode_extend_self c compress t _ rfl hl]
    rw [StringCache.lookup_append]
    simp [hl]

/-- If `add` returns with the state unchanged, the returned index is the id
the encoded form is bound to. -/
theorem StringCache.add_fix_lookup (c : StringCache) (compress : Str → Str)
    (t : Str) (ht : t ≠ []) (i : Nat) (h : c.add compress t = (i, c)) :
    c.lookup (c.encode compress t) = some i := by
  cases hl : c.lookup (c.encode compress t) with
  | some j =>
    rw [c.add_hit compress t ht j hl] at h
    exact congrArg some (congrArg Prod.fst h)
  | none =>
    rw [c.add_miss compress t ht hl] at h
    exfalso
    have hlen := congrArg (fun p : Nat × StringCache => p.2.cache.length) h
    simp at hlen

/-- C1: for every well-formed cache state and every non-empty text `t`,
calling `add(t)` twice returns the same index both times, and the `dump()`
entry at that index decodes back to `t` once the marker is stripped or the
entry decompressed.  The hypotheses on `compress` record the properties of
the real `compress_text` (zlib+base64): it is invertible and its output never
starts with the marker character. -/
theorem stringcache_add_roundtrip (compress decompress : Str → Str)
    (c : StringCache) (t : Str) (hwf : c.WF) (ht : t ≠ [])
    (hinv : ∀ s, decompress (compress s) = s)
    (hstar : ∀ s, (compress s).head? ≠ some '*') :
    (((c.add compress t).2).add compress t).1 = (c.add compress t).1 ∧
    ∃ e, ((((c.add compress t).2).add compress t).2).dump[(c.add compress t).1]?
        = some e ∧ decodeEntry decompress e = t := by
  have hsame := c.add_add_same compress t ht
  constructor
  · rw [hsame]
  · rw [hsame]
    have hwf1 : ((c.add compress t).2).WF := c.add_wf hwf compress t
    have hlk : ((c.add compress t).2).lookup
        (((c.add compress t).2).encode compress t) = some (c.add compress t).1 :=
      ((c.add compress t).2).add_fix_lookup compress t ht (c.add compress t).1 hsame
    refine ⟨((c.add compress t).2).encode compress t,
      ((c.add compress t).2).dump_getElem? hwf1 _ _ hlk, ?_⟩
    rcases ((c.add compress t).2).encode_cases compress t with he | he
    · rw [he]
      simp [decodeEntry, marked]
    · rw [he]
      simp [decodeEntry, hstar t, hinv t]

theorem stringcache_add_roundtrip_witness :
    ((StringCache.init.add consCompress ['a']).2.add consCompress ['a']).1
        = (StringCache.init.add consCompress ['a']).1 ∧
    ∃ e, (((StringCache.init.add consCompress ['a']).2.add consCompress
          ['a']).2).dump[(StringCache.init.add consCompress ['a']).1]?
        = some e ∧ decodeEntry tailDecompress e = ['a'] :=
  stringcache_add_roundtrip consCompress tailDecompress StringCache.init ['a']
    ⟨rfl, rfl⟩ (by decide) (fun _ => rfl) (fun s => by simp [consCompress])

/-- C2: adding the empty string or `None` returns index 0 and leaves the
cache (mapping and counter alike) completely unchanged, on every call. -/
theorem stringcache_add_empty (c : StringCache) (compress : Str → Str) :
    c.add compress [] = (0, c) ∧ c.addOpt compress none = (0, c) := by
  constructor
  · unfold StringCache.add
    simp
  · rfl

/-- C7: `add` is total — for every input (empty, `None`, or non-empty) and
every cache state it returns an index, and either hits an existing binding
with the state unchanged, or inserts exactly one new entry at the next id. -/
theorem stringcache_add_total (c : StringCache) (compress : Str → Str)
    (t : Option Str) :
    ((c.addOpt compress t).2 = c ∧
        ((c.addOpt compress t).1 = 0 ∨
          ∃ e, c.lookup e = some (c.addOpt compress t).1)) ∨
      ∃ e, c.lookup e = none ∧
        (c.addOpt compress t).1 = c.index ∧
        (c.addOpt compress t).2 = ⟨c.cache ++ [(e, c.index)], c.index + 1⟩ := by
  cases t with
  | none => exact Or.inl ⟨rfl, Or.inl rfl⟩
  | some s =>
    by_cases hs : s = []
    · refine Or.inl ⟨?_, Or.inl ?_⟩ <;>
        · subst hs
          simp only [StringCache.addOpt]
          unfold StringCache.add
          simp
    · simp only [StringCache.addOpt]
      cases hl : c.lookup (c.encode compress s) with
      | some i =>
        rw [c.add_hit compress s hs i hl]
        exact Or.inl ⟨rfl, Or.inr ⟨c.encode compress s, hl⟩⟩
      | none =>
        rw [c.add_miss compress s hs hl]
        exact Or.inr ⟨c.encode compress s, hl, rfl, rfl⟩

/-- C3: the encoding decision for a non-empty text: the text is first given
the marker; the compressed form is tried exactly when the marked form is at
least the threshold long and not already cached, and substituted exactly when
`len(compressed) * 1.1 < len(marked)` (modelled as `11·len < 10·len`);
otherwise the marked form is used.  The chosen form is what `add` stores, at
the returned index. -/
theorem stringcache_encode_spec (c : StringCache) (compress : Str → Str)
    (t : Str) (ht : t ≠ []) :
    (compressThreshold ≤ (marked t).length → c.lookup (marked t) = none →
      c.encode compress t =
        if (compress t).length * 11 < (marked t).length * 10 then compress t
        else marked t) ∧
    ((marked t).length < compressThreshold ∨ (c.lookup (marked t)).isSome →
      c.encode compress t = marked t) ∧
    ((c.add compress t).2).lookup (c.encode compress t)
      = some (c.add compress t).1 := by
  refine ⟨?_, ?_, ?_⟩
  · intro hlen hmem
    unfold StringCache.encode
    simp [hmem, Nat.not_lt.mpr hlen]
  · intro h
    unfold StringCache.encode
    rcases h with h | h
    · simp [h]
    · simp [h]
  · cases hl : c.lookup (c.encode compress t) with
    | some i =>
      rw [c.add_hit compress t ht i hl]
      simpa using hl
    | none =>
      rw [c.add_miss compress t ht hl]
      rw [StringCache.lookup_append]
      simp [hl]

theorem stringcache_encode_spec_witness :
    (compressThreshold ≤ (marked ['a']).length →
      StringCache.init.lookup (marked ['a']) = none →
      StringCache.init.encode consCompress ['a'] =
        if (consCompress ['a']).length * 11 < (marked ['a']).length * 10
        then consCompress ['a'] else marked ['a']) ∧
    ((marked ['a']).length < compressThreshold ∨
        (StringCache.init.lookup (marked ['a'])).isSome →
      StringCache.init.encode consCompress ['a'] = marked ['a']) ∧
    ((StringCache.init.add consCompress ['a']).2).lookup
        (StringCache.init.encode consCompress ['a'])
      = some (StringCache.init.add consCompress ['a']).1 :=
  stringcache_encode_spec StringCache.init consCompress ['a'] (by decide)

theorem StringCache.add_head (c : StringCache) (compress : Str → Str) (t : Str)
    (p : Str × Nat) (h : c.cache.head? = some p) :
    ((c.add compress t).2).cache.head? = some p := by
  unfold StringCache.add
  by_cases ht : t = []
  · simpa [ht] using h
  · simp only [if_neg ht]
    cases hl : c.lookup (c.encode compress t) with
    | some i => exact h
    | none =>
      simp only
      rw [List.head?_append_of_ne_nil]
      · exact h
      · intro hnil
        rw [hnil] at h
        exact Option.noConfusion h

theorem StringCache.addOpt_head (c : StringCache) (compress : Str → Str)
    (t : Option Str) (p : Str × Nat) (h : c.cache.head? = some p) :
    ((c.addOpt compress t).2).cache.head? = some p := by
  cases t with
  | none => exact h
  | some s => exact c.add_head compress s p h

theorem StringCache.addAllOpt_head (compress : Str → Str) (ts : List (Option Str)) :
    ∀ (c : StringCache) (p : Str × Nat), c.cache.head? = some p →
      (c.addAllOpt compress ts).cache.head? = some p := by
  induction ts with
  | nil => exact fun c p h => h
  | cons t ts ih =>
    intro c p h
    exact ih _ p (c.addOpt_head compress t p h)

/-- C4: in every reachable cache state the first entry is the empty-string
marker with id 0 (never reassigned), the stored ids are exactly the positions
`0, 1, 2, ...` in first-seen order, and `dump()` lists the encoded strings in
id order with the marker at position 0. -/
theorem stringcache_reachable_invariant (compress : Str → Str)
    (ts : List (Option Str)) :
    (StringCache.init.addAllOpt compress ts).cache.head? = some (['*'], 0) ∧
    (StringCache.init.addAllOpt compress ts).cache.map (·.2)
      = List.range (StringCache.init.addAllOpt compress ts).cache.length ∧
    (StringCache.init.addAllOpt compress ts).dump
      = (StringCache.init.addAllOpt compress ts).cache.map (·.1) ∧
    (StringCache.init.addAllOpt compress ts).dump.head? = some ['*'] := by
  have hwf : (StringCache.init.addAllOpt compress ts).WF :=
    StringCache.addAllOpt_wf compress ts StringCache.init StringCache.init_wf
  have hhead : (StringCache.init.addAllOpt compress ts).cache.head? = some (['*'], 0) :=
    StringCache.addAllOpt_head compress ts StringCache.init (['*'], 0) rfl
  have hdump := (StringCache.init.addAllOpt compress ts).dump_wf hwf
  refine ⟨hhead, hwf.1, hdump, ?_⟩
  rw [hdump, List.head?_map, hhead]
  rfl

theorem StringCache.lookup_add_mono (c : StringCache) (compress : Str → Str)
    (t : Str) (s : Str) (i : Nat) (h : c.lookup s = some i) :
    ((c.add compress t).2).lookup s = some i := by
  unfold StringCache.add
  by_cases ht : t = []
  · simpa [ht] using h
  · simp only [if_neg ht]
    cases hl : c.lookup (c.encode compress t) with
    | some j => exact h
    | none =>
      simp only
      rw [StringCache.lookup_append]
      rw [h]
      rfl

theorem insertedForms_absent (compress : Str → Str) (ts : List (Option Str)) :
    ∀ (c : StringCache) (x : Str), x ∈ insertedForms compress c ts →
      c.lookup x = none := by
  induction ts with
  | nil =>
    intro c x hx
    simp [insertedForms] at hx
  | cons t ts ih =>
    intro c x hx
    cases t with
    | none => exact ih c x hx
    | some s =>
      by_cases hs : s = []
      · rw [insertedForms, if_pos hs] at hx
        exact ih c x hx
      · rw [insertedForms, if_neg hs] at hx
        cases hl : c.lookup (c.encode compress s) with
        | some i =>
          rw [if_pos (by simp [hl])] at hx
          exact ih c x hx
        | none =>
          rw [if_neg (by simp [hl])] at hx
          rcases List.mem_cons.mp hx with hx | hx
          · rw [hx]
            exact hl
          · have hx2 := ih _ x hx
            cases hcx : c.lookup x with
            | none => rfl
            | some i =>
              exfalso
              have := c.lookup_add_mono compress s x i hcx
              rw [this] at hx2
              exact Option.noConfusion hx2

theorem insertedForms_nodup (compress : Str → Str) (ts : List (Option Str)) :
    ∀ (c : StringCache), (insertedForms compress c ts).Nodup := by
  induction ts with
  | nil => intro c; simp [insertedForms]
  | cons t ts ih =>
    intro c
    cases t with
    | none => exact ih c
    | some s =>
      by_cases hs : s = []
      · rw [insertedForms, if_pos hs]
        exact ih c
      · rw [insertedForms, if_neg hs]
        cases hl : c.lookup (c.encode compress s) with
        | some i =>
          rw [if_pos (by simp [hl])]
          exact ih c
        | none =>
          rw [if_neg (by simp [hl])]
          refine List.nodup_cons.mpr ⟨?_, ih _⟩
          intro hmem
          have habs := insertedForms_absent compress ts _ _ hmem
          rw [c.add_miss compress s hs hl] at habs
          rw [StringCache.lookup_append, hl] at habs
          simp at habs

theorem addAllOpt_length (compress : Str → Str) (ts : List (Option Str)) :
    ∀ (c : StringCache), (c.addAllOpt compress ts).cache.length
      = c.cache.length + (insertedForms compress c ts).length := by
  induction ts with
  | nil => intro c; simp [StringCache.addAllOpt, insertedForms]
  | cons t ts ih =>
    intro c
    cases t with
    | none =>
      rw [StringCache.addAllOpt, insertedForms]
      exact ih c
    | some s =>
      by_cases hs : s = []
      · rw [StringCache.addAllOpt, insertedForms, if_pos hs]
        have : (c.addOpt compress (some s)).2 = c := by
          simp only [StringCache.addOpt]
          rw [hs]
          unfold StringCache.add
          simp
        rw [this]
        exact ih c
      · rw [StringCache.addAllOpt, insertedForms, if_neg hs]
        cases hl : c.lookup (c.encode compress s) with
        | some i =>
          rw [if_pos (by simp [hl])]
          have : (c.addOpt compress (some s)).2 = c := by
            simp only [StringCache.addOpt]
            rw [c.add_hit compress s hs i hl]
          rw [this]
          exact ih c
        | none =>
          rw [if_neg (by simp [hl])]
          simp only [StringCache.addOpt]
          rw [ih ((c.add compress s).2)]
          rw [c.add_miss compress s hs hl]
          simp only [List.length_append, List.length_cons, List.length_nil]
          omega

/-- C5: after any finite sequence of `add` calls on a fresh cache, the length
of `dump()` is one plus the number of distinct encoded forms those calls
inserted; empty and `None` additions contribute nothing. -/
theorem stringcache_dump_length (compress : Str → Str) (ts : List (Option Str)) :
    (StringCache.init.addAllOpt compress ts).dump.length
      = 1 + (insertedForms compress StringCache.init ts).dedup.length := by
  have h1 : (StringCache.init.addAllOpt compress ts).dump.length
      = (StringCache.init.addAllOpt compress ts).cache.length := by
    unfold StringCache.dump
    rw [List.length_map, List.length_mergeSort]
  rw [h1, addAllOpt_length compress ts StringCache.init,
    List.Nodup.dedup (insertedForms_nodup compress ts StringCache.init)]
  rfl

/-- C6 fails on the code: `add` deduplicates on the final encoded bytes, so
when the compressed form of a long text equals the marked form of a
previously added short text, the second call returns the index of the first
text instead of a distinct one.  Here `a` is stored in marked form `*a` at index
1, the 100-character text takes the compressed path, its compressed bytes
equal `*a` — and both calls return index 1. -/
theorem stringcache_boundary_counterexample :
    (StringCache.init.encode collideCompress ['a'] = marked ['a']) ∧
    (StringCache.init.add collideCompress ['a']).1 = 1 ∧
    ((StringCache.init.add collideCompress ['a']).2.encode collideCompress
        (List.replicate 100 'b') = collideCompress (List.replicate 100 'b')) ∧
    collideCompress (List.replicate 100 'b') = marked ['a'] ∧
    ¬ ((StringCache.init.add collideCompress ['a']).2.add collideCompress
          (List.replicate 100 'b')).1 ≠ (StringCache.init.add collideCompress ['a']).1 := by
  refine ⟨by decide, by decide, by decide, by decide, ?_⟩
  intro hne
  exact hne (by decide)

/-- C6 amended: the marked/compressed boundary is not a barrier for
deduplication — `add` unifies purely on encoded bytes.  If after `add(t1)`
the marked form of `t1` is bound to index `i1` and the encoding of a second
non-empty text `t2` in that state comes out equal to `marked t1` (e.g.
because `t2` compresses to those very bytes), then `add(t2)` returns the
same index `i1` and leaves the cache unchanged. -/
theorem stringcache_boundary_unifies (compress : Str → Str) (c : StringCache)
    (t1 t2 : Str) (ht2 : t2 ≠ []) (i1 : Nat)
    (h1 : ((c.add compress t1).2).lookup (marked t1) = some i1)
    (henc : ((c.add compress t1).2).encode compress t2 = marked t1) :
    (((c.add compress t1).2).add compress t2).1 = i1 ∧
    (((c.add compress t1).2).add compress t2).2 = (c.add compress t1).2 := by
  have hfix := StringCache.add_hit ((c.add compress t1).2) compress t2 ht2 i1
    (by rw [henc]; exact h1)
  rw [hfix]
  exact ⟨rfl, rfl⟩

theorem stringcache_boundary_unifies_witness :
    (((StringCache.init.add collideCompress ['a']).2).add collideCompress
        (List.replicate 100 'b')).1 = 1 ∧
    (((StringCache.init.add collideCompress ['a']).2).add collideCompress
        (List.replicate 100 'b')).2 = (StringCache.init.add collideCompress ['a']).2 :=
  stringcache_boundary_unifies collideCompress StringCache.init ['a']
    (List.replicate 100 'b') (by decide) 1 (by decide) (by decide)

theorem CacheWorld.runAt_spec (compress : Str → Str) (ts : List (Option Str)) :
    ∀ (w : CacheWorld) (k : Nat) (c : StringCache), w[k]? = some c →
      (w.runAt k compress ts).1 = (c.runIndices compress ts).map some ∧
      (w.runAt k compress ts).2[k]? = some (c.addAllOpt compress ts) ∧
      ∀ j, j ≠ k → (w.runAt k compress ts).2[j]? = w[j]? := by
  induction ts with
  | nil =>
    intro w k c hk
    exact ⟨rfl, hk, fun j _ => rfl⟩
  | cons t ts ih =>
    intro w k c hk
    have hklt : k < w.length := (List.getElem?_eq_some.mp hk).1
    have haddAt : w.addAt k compress t = (some (c.addOpt compress t).1,
        w.set k (c.addOpt compress t).2) := by
      unfold CacheWorld.addAt
      rw [hk]
    have hk1 : (w.set k (c.addOpt compress t).2)[k]? = some (c.addOpt compress t).2 :=
      List.getElem?_set_self hklt
    have hIH := ih (w.set k (c.addOpt compress t).2) k (c.addOpt compress t).2 hk1
    refine ⟨?_, ?_, ?_⟩
    · show (w.addAt k compress t).1 ::
          ((w.addAt k compress t).2.runAt k compress ts).1 = _
      rw [haddAt]
      exact congrArg _ hIH.1
    · show ((w.addAt k compress t).2.runAt k compress ts).2[k]? = _
      rw [haddAt]
      exact hIH.2.1
    · intro j hj
      show ((w.addAt k compress t).2.runAt k compress ts).2[j]? = _
      rw [haddAt]
      rw [hIH.2.2 j hj]
      exact List.getElem?_set_ne (fun h => hj h.symm)

/-- C8: determinism and isolation of `StringCache` instances: two freshly
created instances (slot `k1` of `w1` and slot `k2` of `w2`, both holding
`init`) given the same sequence of `add` calls return the same sequence of
indices and produce identical `dump()` outputs, and the run against one slot
leaves every other instance untouched. -/
theorem stringcache_deterministic_isolated (compress : Str → Str)
    (w1 w2 : CacheWorld) (k1 k2 : Nat) (ts : List (Option Str))
    (h1 : w1[k1]? = some StringCache.init)
    (h2 : w2[k2]? = some StringCache.init) :
    (w1.runAt k1 compress ts).1 = (w2.runAt k2 compress ts).1 ∧
    ((w1.runAt k1 compress ts).2[k1]?).map StringCache.dump
      = ((w2.runAt k2 compress ts).2[k2]?).map StringCache.dump ∧
    ∀ j, j ≠ k1 → (w1.runAt k1 compress ts).2[j]? = w1[j]? := by
  have s1 := CacheWorld.runAt_spec compress ts w1 k1 _ h1
  have s2 := CacheWorld.runAt_spec compress ts w2 k2 _ h2
  refine ⟨?_, ?_, s1.2.2⟩
  · rw [s1.1, s2.1]
  · rw [s1.2.1, s2.2.1]

theorem stringcache_deterministic_isolated_witness :
    (CacheWorld.runAt [StringCache.init] 0 consCompress [some ['a'], none]).1
      = (CacheWorld.runAt [StringCache.init, StringCache.init] 1 consCompress
          [some ['a'], none]).1 ∧
    ((CacheWorld.runAt [StringCache.init] 0 consCompress
          [some ['a'], none]).2[0]?).map StringCache.dump
      = ((CacheWorld.runAt [StringCache.init, StringCache.init] 1 consCompress
          [some ['a'], none]).2[1]?).map StringCache.dump ∧
    ∀ j, j ≠ 0 → (CacheWorld.runAt [StringCache.init] 0 consCompress
        [some ['a'], none]).2[j]? = ([StringCache.init] : CacheWorld)[j]? :=
  stringcache_deterministic_isolated consCompress [StringCache.init]
    [StringCache.init, StringCache.init] 0 1 [some ['a'], none] rfl rfl

/-- C9 fails as stated: a `resolve` call made while the variable is already
being resolved does raise, internally, a `DataError` with the recursive-
definition message, but `resolve` itself catches that error and raises the
not-found `DataError` instead — the recursion message only reaches the error
reporter.  Concretely, with the flag set, name `x` present in the store and
a body that would succeed, the raised error carries the not-found message,
not the recursion message (which is what gets reported). -/
theorem delayed_resolve_recursion_counterexample :
    (DelayedVariable.resolve true (.ok [['v']]) ['x'] [['x']]).result
        = .error ⟨notFoundMsg ['x']⟩ ∧
    (DelayedVariable.resolve true (.ok [['v']]) ['x'] [['x']]).result
        ≠ .error ⟨recursiveMsg⟩ ∧
    (DelayedVariable.resolve true (.ok [['v']]) ['x'] [['x']]).reported
        = [recursiveMsg] := by
  refine ⟨rfl, ?_, rfl⟩
  intro h
  simp [DelayedVariable.resolve, delayedResolveInner, raiseNotFound,
    notFoundMsg, recursiveMsg, quoteCh] at h

/-- C9 amended: invoking `resolve` while the same variable is already being
resolved makes the recursion guard raise a `DataError` with the
recursive-definition message internally; `resolve` catches it, reports that
message through the error reporter of the variable itself (when the variable
is still in the store, which it then also removes) and raises the not-found
`DataError` instead, leaving the flag to the outer resolution.  A resolution that
entered with the flag clear restores the flag to `False` on every exit,
normal return and error alike, so a failed resolution never leaves the
variable permanently marked as resolving. -/
theorem delayed_resolve_recursion_guard (body : Except DataError (List Str))
    (name : Str) (store : List Str) :
    ((DelayedVariable.resolve true body name store).result
        = .error ⟨notFoundMsg name⟩ ∧
      (name ∈ store →
        (DelayedVariable.resolve true body name store).reported = [recursiveMsg]) ∧
      (DelayedVariable.resolve true body name store).resolvingAfter = true) ∧
    (DelayedVariable.resolve false body name store).resolvingAfter = false := by
  constructor
  · refine ⟨?_, ?_, ?_⟩ <;>
      · simp only [DelayedVariable.resolve, delayedResolveInner, if_pos rfl]
        first
        | (intro hmem
           simp [hmem])
        | by_cases hmem : name ∈ store <;> simp [hmem, raiseNotFound]
  · simp only [DelayedVariable.resolve, delayedResolveInner, if_neg Bool.false_ne_true]
    cases body with
    | ok v => rfl
    | error e => by_cases hmem : name ∈ store <;> simp [hmem]

theorem delayed_resolve_recursion_guard_witness :
    ((DelayedVariable.resolve true (.error ⟨['e']⟩) ['y'] [['y'], ['z']]).result
        = .error ⟨notFoundMsg ['y']⟩ ∧
      (['y'] ∈ [(['y'] : Str), ['z']] →
        (DelayedVariable.resolve true (.error ⟨['e']⟩) ['y']
            [['y'], ['z']]).reported = [recursiveMsg]) ∧
      (DelayedVariable.resolve true (.error ⟨['e']⟩) ['y']
          [['y'], ['z']]).resolvingAfter = true) ∧
    (DelayedVariable.resolve false (.error ⟨['e']⟩) ['y']
        [['y'], ['z']]).resolvingAfter = false :=
  delayed_resolve_recursion_guard (.error ⟨['e']⟩) ['y'] [['y'], ['z']]

/-- C10: `read` never propagates a `DataError`: falsy entries are skipped,
every failing entry is reported through the callback of that entry alone and
omitted, and the remaining valid entries are yielded in their original
order; in particular a scalar-named variable with a multi-element list value
fails with the scalar-list message.  `validate`/`isScalar` stand for
`validate_var`/`is_scalar_var`, which live outside the source files. -/
theorem variabletable_read_spec (validate : Str → Except DataError Unit)
    (isScalar : Str → Bool) (vars : List VarEntry) (i0 : Nat) :
    VariableTableReader.read validate isScalar vars
      = vars.filterMap (fun v =>
          if v.truthy = false then none
          else (getNameAndValue validate isScalar v.name v.value).toOption) ∧
    readReports validate isScalar i0 vars
      = (vars.enumFrom i0).filterMap (fun p =>
          if p.2.truthy = false then none
          else
            match getNameAndValue validate isScalar p.2.name p.2.value with
            | .ok _ => none
            | .error e => some (p.1, e)) ∧
    (∀ v : VarEntry, v.truthy = true → validate v.name = .ok () →
      isScalar v.name = true → ∀ l, v.value = Sum.inr l → 1 < l.length →
        getNameAndValue validate isScalar v.name v.value
          = .error ⟨scalarListMsg v.name⟩) := by
  refine ⟨?_, ?_, ?_⟩
  · induction vars with
    | nil => rfl
    | cons v vs ih =>
      rw [VariableTableReader.read, List.filterMap_cons]
      by_cases hv : v.truthy = false
      · simp only [hv, if_pos rfl]
        exact ih
      · simp only [if_neg hv]
        cases hg : getNameAndValue validate isScalar v.name v.value with
        | ok p => simp [hg, Except.toOption, ih]
        | error e => simp [hg, Except.toOption, ih]
  · induction vars generalizing i0 with
    | nil => rfl
    | cons v vs ih =>
      rw [readReports, List.enumFrom_cons, List.filterMap_cons]
      by_cases hv : v.truthy = false
      · simp only [hv, if_pos rfl]
        exact ih (i0 + 1)
      · simp only [if_neg hv]
        cases hg : getNameAndValue validate isScalar v.name v.value with
        | ok p => simp [hg, ih (i0 + 1)]
        | error e => simp [hg, ih (i0 + 1)]
  · intro v htr hval hsc l hl hlen
    rw [hl]
    simp only [getNameAndValue, hval, validateVarIsNotScalarList, hsc, valueLen,
      Bind.bind, Except.bind]
    simp [decide_eq_true hlen]

theorem variabletable_read_spec_witness :
    (VariableTableReader.read okValidate allScalar
        [⟨true, ['x'], Sum.inr [['a'], ['b']]⟩]
      = ([⟨true, ['x'], Sum.inr [['a'], ['b']]⟩] : List VarEntry).filterMap
          (fun v =>
            if v.truthy = false then none
            else (getNameAndValue okValidate allScalar
                v.name v.value).toOption)) ∧
    (readReports okValidate allScalar 0
        [⟨true, ['x'], Sum.inr [['a'], ['b']]⟩]
      = (([⟨true, ['x'], Sum.inr [['a'], ['b']]⟩] : List VarEntry).enumFrom
            0).filterMap (fun p =>
          if p.2.truthy = false then none
          else
            match getNameAndValue okValidate allScalar p.2.name p.2.value with
            | .ok _ => none
            | .error e => some (p.1, e))) ∧
    (∀ v : VarEntry, v.truthy = true → okValidate v.name = .ok () →
      allScalar v.name = true → ∀ l, v.value = Sum.inr l → 1 < l.length →
        getNameAndValue okValidate allScalar v.name v.value
          = .error ⟨scalarListMsg v.name⟩) :=
  variabletable_read_spec okValidate allScalar
    [⟨true, ['x'], Sum.inr [['a'], ['b']]⟩] 0
